import Mathlib

/-!
Verification of the steganographic codecs of rimworld_stego.py.

This file gives a shallow embedding of the three codecs of the repository
(field codec over grass elements, whitespace codec, fractional codec) and
proves or refutes the specification claims about them.

Modelling conventions:

* Python bit strings (strings of the characters 0 and 1) are `List Bool`,
  most significant bit first.  Python's `int(s, 2)` is `bitsToNat`,
  `bin(n)[2:]` is `natToBits`, and `bin(n)[2:].zfill(w)` is `toBin n w`.
* Python `Decimal` values (exact decimal fractions) are rationals.  The
  operations used by the source - exact division by a power of ten,
  multiplication by an integer followed by `int()` truncation, `math.floor` -
  are written on the numerator/denominator representation (`mkRat`,
  `Int.tdiv`, `Int.fdiv`) so that every definition evaluates inside the
  kernel; bridge lemmas relate them to the textbook field operations.
* An operation of the source that can raise an exception on the inputs a
  claim quantifies over is given an `Option` result, `none` standing for the
  raised exception.
-/

namespace RimStego

/-- Value of a big-endian bit string, as computed by Python's int(s, 2). -/
def bitsToNat (l : List Bool) : Nat := l.foldl (fun a b => 2 * a + b.toNat) 0

/-- Binary digits of n, most significant first, no leading zeros; this is
bin(n)[2:] for positive n and the empty string for 0.  The first argument is
fuel (any amount at least n works) so that the recursion is structural and
the definition evaluates inside the kernel. -/
def natToBitsGo : Nat → Nat → List Bool
  | _, 0 => []
  | 0, _+1 => []
  | f+1, n+1 => natToBitsGo f ((n+1) / 2) ++ [decide ((n+1) % 2 = 1)]

/-- Python's bin(n)[2:]: binary digits of n, where bin(0)[2:] is the single
digit 0. -/
def natToBits (n : Nat) : List Bool := if n = 0 then [false] else natToBitsGo n n

/-- Python str.zfill(w) on a bit string: left pad with zero bits to width w
(a longer string is returned unchanged). -/
def zfill (w : Nat) (l : List Bool) : List Bool := List.replicate (w - l.length) false ++ l

/-- Python bin(n)[2:].zfill(w). -/
def toBin (n w : Nat) : List Bool := zfill w (natToBits n)

/-- Chunk a bit string into 8-bit big-endian groups; fuel-driven recursion,
any fuel at least the list length works. -/
def bitsToBytesGo : Nat → List Bool → List Nat
  | _, [] => []
  | 0, _ :: _ => []
  | f+1, b :: l => bitsToNat ((b :: l).take 8) :: bitsToBytesGo f (l.drop 7)

/-- Chunk a bit string into 8-bit big-endian groups, as the decoding loops of
the source do with int(bits[index:index+8], 2); a final group shorter than 8
bits is parsed as-is. -/
def bitsToBytes (l : List Bool) : List Nat := bitsToBytesGo l.length l

/-- Concatenation of the 8-bit encodings of a byte list: Python's
''.join(bin(x)[2:].zfill(8) for x in bytes). -/
def bytesToBits (l : List Nat) : List Bool := l.foldr (fun x r => toBin x 8 ++ r) []

theorem bitsToNat_go (l : List Bool) (a : Nat) :
    l.foldl (fun a b => 2 * a + b.toNat) a
      = a * 2 ^ l.length + l.foldl (fun a b => 2 * a + b.toNat) 0 := by
  induction l generalizing a with
  | nil => simp
  | cons b t ih =>
    simp only [List.foldl_cons, List.length_cons]
    rw [ih (2 * a + b.toNat), ih (2 * 0 + b.toNat)]
    ring

theorem bitsToNat_cons (b : Bool) (l : List Bool) :
    bitsToNat (b :: l) = b.toNat * 2 ^ l.length + bitsToNat l := by
  simp only [bitsToNat, List.foldl_cons]
  rw [bitsToNat_go]
  simp

theorem bitsToNat_append (l₁ l₂ : List Bool) :
    bitsToNat (l₁ ++ l₂) = bitsToNat l₁ * 2 ^ l₂.length + bitsToNat l₂ := by
  simp only [bitsToNat, List.foldl_append]
  rw [bitsToNat_go]

theorem bitsToNat_lt (l : List Bool) : bitsToNat l < 2 ^ l.length := by
  induction l with
  | nil => simp [bitsToNat]
  | cons b t ih =>
    rw [bitsToNat_cons]
    have hb : b.toNat * 2 ^ t.length ≤ 2 ^ t.length := by cases b <;> simp
    simp only [List.length_cons, pow_succ]
    omega

theorem bitsToNat_replicate_false (n : Nat) : bitsToNat (List.replicate n false) = 0 := by
  induction n with
  | zero => simp [bitsToNat]
  | succ m ih => rw [List.replicate_succ, bitsToNat_cons]; simp [ih]

theorem natToBitsGo_val : ∀ f n, n ≤ f → bitsToNat (natToBitsGo f n) = n := by
  intro f
  induction f with
  | zero =>
    intro n hn
    match n, hn with
    | 0, _ => simp [natToBitsGo, bitsToNat]
  | succ f ih =>
    intro n hn
    match n with
    | 0 => simp [natToBitsGo, bitsToNat]
    | m+1 =>
      rw [natToBitsGo, bitsToNat_append, ih ((m+1)/2) (by omega)]
      have hone : bitsToNat [decide ((m+1) % 2 = 1)] = (m+1) % 2 := by
        by_cases h : (m+1) % 2 = 1 <;> simp [h, bitsToNat] <;> omega
      rw [hone]
      simp only [List.length_singleton, pow_one]
      omega

theorem natToBitsGo_len : ∀ f n w, n < 2 ^ w → (natToBitsGo f n).length ≤ w := by
  intro f
  induction f with
  | zero =>
    intro n w _
    match n with
    | 0 => simp [natToBitsGo]
    | m+1 => simp [natToBitsGo]
  | succ f ih =>
    intro n w hw
    match n with
    | 0 => simp [natToBitsGo]
    | m+1 =>
      have hw1 : 1 ≤ w := by
        by_contra h
        interval_cases w
        omega
      have h2 : 2 ^ w = 2 * 2 ^ (w - 1) := by
        rw [← pow_succ']
        congr 1
        omega
      rw [natToBitsGo]
      have := ih ((m+1)/2) (w - 1) (by omega)
      simp only [List.length_append, List.length_singleton]
      omega

theorem natToBits_val (n : Nat) : bitsToNat (natToBits n) = n := by
  unfold natToBits
  by_cases h : n = 0
  · simp [h, bitsToNat]
  · simp [h, natToBitsGo_val n n le_rfl]

theorem natToBits_len (n w : Nat) (h : n < 2 ^ w) (hw : 1 ≤ w) :
    (natToBits n).length ≤ w := by
  unfold natToBits
  by_cases h0 : n = 0
  · simpa [h0] using hw
  · simp only [h0, if_false]
    exact natToBitsGo_len n n w h

theorem bitsToBytesGo_eq : ∀ f l, l.length ≤ f → bitsToBytesGo f l = bitsToBytes l := by
  have key : ∀ f f' l, l.length ≤ f → l.length ≤ f' →
      bitsToBytesGo f l = bitsToBytesGo f' l := by
    intro f
    induction f with
    | zero =>
      intro f' l hf _
      match l, hf with
      | [], _ => cases f' <;> simp [bitsToBytesGo]
    | succ f ih =>
      intro f' l hf hf'
      match l with
      | [] => cases f' <;> simp [bitsToBytesGo]
      | b :: t =>
        match f' with
        | 0 => simp at hf'
        | g+1 =>
          rw [bitsToBytesGo, bitsToBytesGo]
          congr 1
          apply ih
          · simp only [List.length_cons] at hf
            simp only [List.length_drop]
            omega
          · simp only [List.length_cons] at hf'
            simp only [List.length_drop]
            omega
  intro f l hf
  exact key f l.length l hf le_rfl

theorem bitsToBytes_cons (b : Bool) (l : List Bool) :
    bitsToBytes (b :: l) = bitsToNat ((b :: l).take 8) :: bitsToBytes (l.drop 7) := by
  show bitsToBytesGo (b :: l).length (b :: l) = _
  rw [List.length_cons, bitsToBytesGo]
  congr 1
  apply bitsToBytesGo_eq
  simp only [List.length_drop]
  omega

theorem toBin_val (n w : Nat) : bitsToNat (toBin n w) = n := by
  unfold toBin zfill
  rw [bitsToNat_append, bitsToNat_replicate_false, natToBits_val]
  simp

theorem toBin_length (n w : Nat) (h : n < 2 ^ w) (hw : 1 ≤ w) :
    (toBin n w).length = w := by
  unfold toBin zfill
  have := natToBits_len n w h hw
  simp only [List.length_append, List.length_replicate]
  omega

theorem toBin_length_ge (n w : Nat) : w ≤ (toBin n w).length := by
  unfold toBin zfill
  simp only [List.length_append, List.length_replicate]
  omega

theorem bitsToNat_inj : ∀ l₁ l₂ : List Bool, l₁.length = l₂.length →
    bitsToNat l₁ = bitsToNat l₂ → l₁ = l₂ := by
  intro l₁
  induction l₁ with
  | nil => intro l₂ h _; cases l₂ <;> simp_all
  | cons b t ih =>
    intro l₂ hlen hval
    match l₂ with
    | [] => simp at hlen
    | c :: s =>
      simp only [List.length_cons, Nat.add_right_cancel_iff] at hlen
      rw [bitsToNat_cons, bitsToNat_cons, hlen] at hval
      have h1 : bitsToNat t < 2 ^ s.length := hlen ▸ bitsToNat_lt t
      have h2 : bitsToNat s < 2 ^ s.length := bitsToNat_lt s
      have hb : b = c ∧ bitsToNat t = bitsToNat s := by
        cases b <;> cases c <;> simp [Bool.toNat] at hval ⊢ <;> omega
      rw [hb.1, ih s hlen hb.2]

theorem toBin_bitsToNat (l : List Bool) (h : 1 ≤ l.length) :
    toBin (bitsToNat l) l.length = l := by
  apply bitsToNat_inj
  · exact toBin_length _ _ (bitsToNat_lt l) h
  · exact toBin_val _ _

/-- Python math.floor of an exact rational value (the denominator of a
rational is positive, so floor division of the numerator by the denominator
is the floor of the value). -/
def qfloor (q : ℚ) : Int := Int.fdiv q.num q.den

/-- Python int() applied to an exact Decimal/rational value: truncation
toward zero. -/
def qtrunc (q : ℚ) : Int := Int.tdiv q.num q.den

/-- Python int(Decimal(text) * Decimal(s)) for a carrier value q: multiply by
the scale s and truncate toward zero, computed on the numerator/denominator
representation so that it evaluates in the kernel. -/
def decScaled (q : ℚ) (s : Nat) : Int := Int.tdiv (q.num * s) q.den

theorem qfloor_eq_floor (q : ℚ) : qfloor q = ⌊q⌋ := by
  rw [Rat.floor_def, qfloor, Int.fdiv_eq_ediv _ (by positivity)]

theorem decScaled_eq (q : ℚ) (s : Nat) (z : Int) (h : q * (s : ℚ) = (z : ℚ)) :
    decScaled q s = z := by
  have hden : (q.den : ℚ) ≠ 0 := by positivity
  have hnum : (q.num : ℚ) = q * (q.den : ℚ) := (div_eq_iff hden).mp (Rat.num_div_den q)
  have hint : q.num * (s : Int) = z * (q.den : Int) := by
    have hc : ((q.num * (s : Int) : Int) : ℚ) = ((z * (q.den : Int) : Int) : ℚ) := by
      push_cast
      calc (q.num : ℚ) * (s : ℚ) = q * (s : ℚ) * (q.den : ℚ) := by rw [hnum]; ring
      _ = (z : ℚ) * (q.den : ℚ) := by rw [h]
    exact_mod_cast hc
  rw [decScaled, hint, Int.mul_tdiv_cancel _ (by positivity)]

/-- One grass carrier element: the numeric suffix of its id text, the integer
health text, the rational value of the growth text, and the optional integer
age text (none when the element has no age child). -/
structure Grass where
  idVal : Nat
  health : Nat
  growth : ℚ
  age : Option Nat
deriving DecidableEq, Repr

instance : Inhabited Grass := ⟨⟨0, 5, 0, none⟩⟩

/-- Number of payload bits a carrier holds: 70 with the age field, 50
without. -/
def bitWidth (g : Grass) : Nat := if g.age.isSome then 70 else 50

/-- Model of set_grass_bits: write bits[i:i+70] into the fields of a carrier,
padding the remaining bits with zeros up to a multiple of 70 exactly as the
source does, and return the updated carrier with the new bit cursor.  The
growth text Decimal(v) / Decimal(100000000) is the exact rational mkRat v
100000000.  (With the cursor at or past the end of the bit string the
source's int of an empty slice would raise; the model reads zero fields
there - the encode loop never makes such a call.) -/
def set_grass_bits (g : Grass) (bits : List Bool) (i : Nat) : Grass × Nat :=
  let r := bits.length - i
  let bits := if r < 70 then bits ++ List.replicate ((r + 69) / 70 * 70 - r) false else bits
  let idv := bitsToNat ((bits.drop i).take 18)
  let health := bitsToNat ((bits.drop (i + 18)).take 6) + 5
  let growthN := bitsToNat ((bits.drop (i + 24)).take 26)
  let ageN := bitsToNat ((bits.drop (i + 50)).take 20)
  match g.age with
  | some _ => (⟨idv, health, mkRat growthN 100000000, some ageN⟩, i + 70)
  | none => (⟨idv, health, mkRat growthN 100000000, none⟩, i + 50)

/-- Model of get_grass_bits: 18 id bits, 6 health bits (stored value minus
5; the subtraction is the truncating Nat subtraction, faithful to the source
for the in-range carriers the claims quantify over), 26 growth bits
(int(Decimal(text) * Decimal(100000000)), nonnegative for the in-range
carriers considered here, hence the toNat), and 20 age bits when the age
field exists. -/
def get_grass_bits (g : Grass) : List Bool :=
  toBin g.idVal 18 ++ toBin (g.health - 5) 6 ++
    toBin (decScaled g.growth 100000000).toNat 26 ++
    (match g.age with | some a => toBin a 20 | none => [])

/-- The carrier-writing loop of bytes_to_grasses: process carriers in order,
stopping as soon as the bit cursor has reached num_bits; carriers past that
point are returned unchanged. -/
def encGo : List Grass → List Bool → Nat → Nat → List Grass
  | [], _, _, _ => []
  | g :: gs, bits, i, n =>
    if n ≤ i then g :: gs
    else (set_grass_bits g bits i).1 :: encGo gs bits (set_grass_bits g bits i).2 n

/-- Model of bytes_to_grasses: prepend the 22-bit big-endian clamped payload
size to the payload bits and write the result into the carriers.  (On an
empty carrier list the source computes the negative size -22 and writes to
no carrier; the Nat minimum clamps at zero and equally writes nothing.) -/
def bytes_to_grasses (elements : List Grass) (payload : List Nat) : List Grass :=
  let bits := bytesToBits payload
  let payload_size := min (elements.length * 70 - 22) (payload.length * 8)
  encGo elements (toBin payload_size 22 ++ bits) 0 (payload_size + 22)

/-- The accumulation loop of bytes_from_grasses: keep appending the bits of
further carriers until at least num_bits bits have been gathered or the
carriers run out. -/
def accGo : List Grass → List Bool → Nat → List Bool
  | [], bits, _ => bits
  | g :: gs, bits, n => if n ≤ bits.length then bits else accGo gs (bits ++ get_grass_bits g) n

/-- Model of bytes_from_grasses: read the first carrier's first 22 bits as
the stored size, gather bits, truncate to the stored size, apply the
source's padding step (whose pad count ceil(len/8) - len is never positive,
so in fact nothing is ever appended), and chunk into bytes.  The source
raises IndexError on an empty carrier list; no claim touches that case and
the model returns the empty list there. -/
def bytes_from_grasses (elements : List Grass) : List Nat :=
  match elements with
  | [] => []
  | e :: es =>
    let num_bits := bitsToNat ((get_grass_bits e).take 22) + 22
    let bits := accGo es ((get_grass_bits e).drop 22) num_bits
    let bits := bits.take (num_bits - 22)
    let bits :=
      if bits.length % 8 ≠ 0 then
        bits ++ List.replicate ((bits.length + 7) / 8 - bits.length) false
      else bits
    bitsToBytes bits

theorem take_drop_append (Y Z : List Bool) (i w : Nat) (h : i + w ≤ Y.length) :
    ((Y ++ Z).drop i).take w = (Y.drop i).take w := by
  rw [List.drop_append_eq_append_drop, List.take_append_eq_append_take]
  have hlen : (Y.drop i).length = Y.length - i := List.length_drop i Y
  have hw : w - (Y.drop i).length = 0 := by omega
  rw [hw, List.take_zero, List.append_nil]

theorem slice_pad (X : List Bool) (i w k K : Nat) (hk : i + w ≤ X.length + k) (hK : k ≤ K) :
    ((X ++ List.replicate K false).drop i).take w
      = ((X ++ List.replicate k false).drop i).take w := by
  have hsplit : X ++ List.replicate K false
      = (X ++ List.replicate k false) ++ List.replicate (K - k) false := by
    rw [List.append_assoc, ← List.replicate_add]
    congr 2
    omega
  rw [hsplit, take_drop_append]
  simp only [List.length_append, List.length_replicate]
  omega

theorem slice_pad_eq (X : List Bool) (i w k₁ k₂ : Nat)
    (h₁ : i + w ≤ X.length + k₁) (h₂ : i + w ≤ X.length + k₂) :
    ((X ++ List.replicate k₁ false).drop i).take w
      = ((X ++ List.replicate k₂ false).drop i).take w := by
  rw [← slice_pad X i w k₁ (max k₁ k₂) h₁ (le_max_left ..),
      ← slice_pad X i w k₂ (max k₁ k₂) h₂ (le_max_right ..)]

theorem set_grass_snd (g : Grass) (bits : List Bool) (i : Nat) :
    (set_grass_bits g bits i).2 = i + bitWidth g := by
  unfold set_grass_bits bitWidth
  cases h : g.age <;> simp [h]

theorem growth_scaled (v : Nat) : decScaled (mkRat v 100000000) 100000000 = v := by
  apply decScaled_eq
  rw [Rat.mkRat_eq_div]
  push_cast
  rw [div_mul_cancel₀]
  norm_num

theorem take_assemble50 (D : List Bool) :
    D.take 18 ++ (D.drop 18).take 6 ++ (D.drop 24).take 26 = D.take 50 := by
  have h24 : D.take 24 = D.take 18 ++ (D.drop 18).take 6 := by
    have h := List.take_add D 18 6
    norm_num at h
    exact h
  have h50 : D.take 50 = D.take 24 ++ (D.drop 24).take 26 := by
    have h := List.take_add D 24 26
    norm_num at h
    exact h
  rw [h50, h24]

theorem take_assemble70 (D : List Bool) :
    D.take 18 ++ (D.drop 18).take 6 ++ (D.drop 24).take 26 ++ (D.drop 50).take 20
      = D.take 70 := by
  have h70 : D.take 70 = D.take 50 ++ (D.drop 50).take 20 := by
    have h := List.take_add D 50 20
    norm_num at h
    exact h
  rw [h70, ← take_assemble50]

theorem get_set_grass (g : Grass) (B : List Bool) (i : Nat) (hi : i < B.length) :
    get_grass_bits (set_grass_bits g B i).1
      = ((B ++ List.replicate 70 false).drop i).take (bitWidth g) := by
  have hr : 1 ≤ B.length - i := by omega
  set r := B.length - i with hrdef
  set k : Nat := if r < 70 then (r + 69) / 70 * 70 - r else 0 with hkdef
  have hP : i + 70 ≤ B.length + k := by
    by_cases h70 : r < 70
    · have h1 : (r + 69) / 70 = 1 := by omega
      simp only [hkdef, if_pos h70, h1]
      omega
    · simp only [hkdef, if_neg h70]
      omega
  set P := B ++ List.replicate k false with hPdef
  have hbits : (if B.length - i < 70
      then B ++ List.replicate ((B.length - i + 69) / 70 * 70 - (B.length - i)) false
      else B) = P := by
    by_cases h70 : B.length - i < 70
    · simp [hPdef, hkdef, hrdef, h70]
    · simp [hPdef, hkdef, hrdef, h70]
  have hslice : ∀ a w : Nat, i + a + w ≤ i + 70 → ((P.drop (i + a)).take w).length = w := by
    intro a w hw
    have hPlen : B.length + k = P.length := by simp [hPdef]
    simp only [List.length_take, List.length_drop]
    omega
  have hface : ∀ a w : Nat, 1 ≤ w → i + a + w ≤ i + 70 →
      toBin (bitsToNat ((P.drop (i + a)).take w)) w = (P.drop (i + a)).take w := by
    intro a w hw1 hw2
    have h := toBin_bitsToNat ((P.drop (i + a)).take w) (by rw [hslice a w hw2]; exact hw1)
    rwa [hslice a w hw2] at h
  have hdrop : ∀ a : Nat, P.drop (i + a) = (P.drop i).drop a := by
    intro a
    rw [List.drop_drop]
  have hface0 : toBin (bitsToNat ((P.drop i).take 18)) 18 = (P.drop i).take 18 := by
    have h := hface 0 18 (by omega) (by omega)
    simpa using h
  have hpadeq : ∀ w : Nat, w ≤ 70 →
      (P.drop i).take w = ((B ++ List.replicate 70 false).drop i).take w := by
    intro w hw
    rw [hPdef]
    exact slice_pad_eq B i w k 70 (by omega) (by omega)
  cases hage : g.age with
  | some a =>
    have hset : (set_grass_bits g B i).1 =
        (⟨bitsToNat ((P.drop i).take 18),
          bitsToNat ((P.drop (i + 18)).take 6) + 5,
          mkRat (bitsToNat ((P.drop (i + 24)).take 26)) 100000000,
          some (bitsToNat ((P.drop (i + 50)).take 20))⟩ : Grass) := by
      simp only [set_grass_bits, hage]
      rw [hbits]
    rw [hset]
    simp only [get_grass_bits, bitWidth, hage, Option.isSome_some, if_pos]
    rw [Nat.add_sub_cancel, growth_scaled, Int.toNat_natCast]
    rw [hface 18 6 (by omega) (by omega), hface 24 26 (by omega) (by omega),
        hface 50 20 (by omega) (by omega), hface0]
    rw [hdrop 18, hdrop 24, hdrop 50, take_assemble70]
    exact hpadeq 70 (by omega)
  | none =>
    have hset : (set_grass_bits g B i).1 =
        (⟨bitsToNat ((P.drop i).take 18),
          bitsToNat ((P.drop (i + 18)).take 6) + 5,
          mkRat (bitsToNat ((P.drop (i + 24)).take 26)) 100000000, none⟩ : Grass) := by
      simp only [set_grass_bits, hage]
      rw [hbits]
    rw [hset]
    simp only [get_grass_bits, bitWidth, hage, Option.isSome_none, Bool.false_eq_true, if_neg,
      List.append_nil]
    rw [Nat.add_sub_cancel, growth_scaled, Int.toNat_natCast]
    rw [hface 18 6 (by omega) (by omega), hface 24 26 (by omega) (by omega), hface0]
    rw [hdrop 18, hdrop 24, take_assemble50]
    exact hpadeq 50 (by omega)

theorem accGo_extends : ∀ (els : List Grass) (acc : List Bool) (n : Nat),
    ∃ t, accGo els acc n = acc ++ t := by
  intro els
  induction els with
  | nil => intro acc n; exact ⟨[], by simp [accGo]⟩
  | cons g gs ih =>
    intro acc n
    by_cases h : n ≤ acc.length
    · exact ⟨[], by simp [accGo, h]⟩
    · obtain ⟨t, ht⟩ := ih (acc ++ get_grass_bits g) n
      refine ⟨get_grass_bits g ++ t, ?_⟩
      simp [accGo, h, ht]

theorem bitWidth_bounds (g : Grass) : 22 ≤ bitWidth g ∧ bitWidth g ≤ 70 := by
  unfold bitWidth
  by_cases h : g.age.isSome <;> simp [h]

theorem widthSum_le (l : List Grass) : (l.map bitWidth).sum ≤ 70 * l.length := by
  induction l with
  | nil => simp
  | cons g gs ih =>
    have := (bitWidth_bounds g).2
    simp only [List.map_cons, List.sum_cons, List.length_cons]
    omega

theorem drop22_PP (B : List Bool) (h22 : 22 ≤ B.length) :
    (B ++ List.replicate 70 false).drop 22 = B.drop 22 ++ List.replicate 70 false := by
  rw [List.drop_append_eq_append_drop]
  congr 1
  rw [List.drop_replicate]
  congr 1
  omega

theorem take_of_prefix_len (X T : List Bool) (m : Nat) (hm : m ≤ X.length) :
    (X ++ T).take m = X.take m := by
  rw [List.take_append_eq_append_take]
  have h0 : m - X.length = 0 := by omega
  rw [h0, List.take_zero, List.append_nil]

theorem acc_base (B : List Bool) (h22 : 22 ≤ B.length) (i : Nat)
    (hin : B.length ≤ i) (hi : i ≤ B.length + 69) :
    (((B ++ List.replicate 70 false).drop 22).take (i - 22)).take (B.length - 22)
      = B.drop 22 := by
  rw [List.take_take, drop22_PP B h22]
  have hmin : min (B.length - 22) (i - 22) = B.length - 22 := by omega
  rw [hmin]
  have hlen : (B.drop 22).length = B.length - 22 := List.length_drop ..
  rw [take_of_prefix_len _ _ _ (by omega), ← hlen, List.take_length]

theorem acc_main (B : List Bool) (h22 : 22 ≤ B.length) :
    ∀ (els : List Grass) (i : Nat), 22 ≤ i → i ≤ B.length + 69 →
      B.length ≤ i + (els.map bitWidth).sum →
      (accGo (encGo els B i B.length)
          (((B ++ List.replicate 70 false).drop 22).take (i - 22)) B.length).take
          (B.length - 22)
        = B.drop 22 := by
  intro els
  induction els with
  | nil =>
    intro i h22i hub hcap
    simp only [List.map_nil, List.sum_nil, Nat.add_zero] at hcap
    show (accGo (encGo [] B i B.length) _ B.length).take (B.length - 22) = B.drop 22
    rw [encGo]
    show (accGo [] _ B.length).take (B.length - 22) = B.drop 22
    rw [accGo]
    exact acc_base B h22 i hcap hub
  | cons g gs ih =>
    intro i h22i hub hcap
    by_cases hni : B.length ≤ i
    · rw [encGo, if_pos hni]
      obtain ⟨t, ht⟩ := accGo_extends (g :: gs)
        (((B ++ List.replicate 70 false).drop 22).take (i - 22)) B.length
      rw [ht]
      have hacclen : (((B ++ List.replicate 70 false).drop 22).take (i - 22)).length
          = i - 22 := by
        simp only [List.length_take, List.length_drop, List.length_append,
          List.length_replicate]
        omega
      rw [take_of_prefix_len _ _ _ (by omega)]
      exact acc_base B h22 i hni hub
    · push_neg at hni
      rw [encGo, if_neg (by omega)]
      show (accGo ((set_grass_bits g B i).1 :: encGo gs B (set_grass_bits g B i).2 B.length)
          _ B.length).take (B.length - 22) = B.drop 22
      have hacclen : (((B ++ List.replicate 70 false).drop 22).take (i - 22)).length
          = i - 22 := by
        simp only [List.length_take, List.length_drop, List.length_append,
          List.length_replicate]
        omega
      rw [accGo, if_neg (by omega)]
      have hw := bitWidth_bounds g
      have hget := get_set_grass g B i (by omega)
      have hjoin : ((B ++ List.replicate 70 false).drop 22).take (i - 22)
            ++ get_grass_bits (set_grass_bits g B i).1
          = ((B ++ List.replicate 70 false).drop 22).take (i + bitWidth g - 22) := by
        rw [hget]
        have hd : (B ++ List.replicate 70 false).drop i
            = ((B ++ List.replicate 70 false).drop 22).drop (i - 22) := by
          rw [List.drop_drop]
          congr 1
          omega
        rw [hd]
        have hadd := List.take_add ((B ++ List.replicate 70 false).drop 22)
          (i - 22) (bitWidth g)
        rw [← hadd]
        congr 1
        omega
      rw [hjoin, set_grass_snd]
      apply ih (i + bitWidth g) (by omega) (by omega)
      simp only [List.map_cons, List.sum_cons] at hcap
      omega

theorem encGo_stopped : ∀ (els : List Grass) (bits : List Bool) (i n : Nat),
    n ≤ i → encGo els bits i n = els := by
  intro els bits i n h
  cases els with
  | nil => rw [encGo]
  | cons g gs => rw [encGo, if_pos h]

theorem encGo_drop : ∀ (els : List Grass) (bits : List Bool) (i n j : Nat),
    n ≤ i + ((els.take j).map bitWidth).sum →
    (encGo els bits i n).drop j = els.drop j := by
  intro els
  induction els with
  | nil => intro bits i n j _; rw [encGo]
  | cons g gs ih =>
    intro bits i n j hcap
    match j with
    | 0 =>
      simp only [List.take_zero, List.map_nil, List.sum_nil, Nat.add_zero] at hcap
      rw [encGo_stopped _ _ _ _ hcap]
    | j+1 =>
      by_cases hni : n ≤ i
      · rw [encGo, if_pos hni]
      · rw [encGo, if_neg hni]
        simp only [List.drop_succ_cons]
        rw [set_grass_snd]
        apply ih
        simp only [List.take_succ_cons, List.map_cons, List.sum_cons] at hcap
        omega

theorem bytesToBits_cons (b : Nat) (t : List Nat) :
    bytesToBits (b :: t) = toBin b 8 ++ bytesToBits t := rfl

theorem bytesToBits_length (p : List Nat) (hp : ∀ b ∈ p, b < 256) :
    (bytesToBits p).length = 8 * p.length := by
  induction p with
  | nil => simp [bytesToBits]
  | cons b t ih =>
    rw [bytesToBits_cons, List.length_append,
      toBin_length b 8 (by exact_mod_cast hp b (by simp)) (by omega),
      ih (fun x hx => hp x (by simp [hx]))]
    simp only [List.length_cons]
    ring

theorem bitsToBytes_chunk (c l : List Bool) (hc : c.length = 8) :
    bitsToBytes (c ++ l) = bitsToNat c :: bitsToBytes l := by
  match c, hc with
  | b :: t, hc =>
    rw [List.cons_append, bitsToBytes_cons]
    simp only [List.length_cons] at hc
    congr 1
    · have h8 : (b :: t).take 8 = b :: t := by
        apply List.take_of_length_le
        simp only [List.length_cons]
        omega
      rw [← List.cons_append, take_of_prefix_len _ _ _ (by simp only [List.length_cons]; omega),
        h8]
    · rw [List.drop_append_eq_append_drop]
      have h7 : t.drop 7 = [] := by
        apply List.drop_eq_nil_of_le
        omega
      rw [h7, List.nil_append, show 7 - t.length = 0 by omega, List.drop_zero]

theorem bitsToBytes_bytesToBits (p : List Nat) (hp : ∀ b ∈ p, b < 256) :
    bitsToBytes (bytesToBits p) = p := by
  induction p with
  | nil => rfl
  | cons b t ih =>
    rw [bytesToBits_cons,
      bitsToBytes_chunk _ _ (toBin_length b 8 (by exact_mod_cast hp b (by simp)) (by omega)),
      toBin_val, ih (fun x hx => hp x (by simp [hx]))]

theorem pad_noop (l : List Bool) :
    (if l.length % 8 ≠ 0 then l ++ List.replicate ((l.length + 7) / 8 - l.length) false
     else l) = l := by
  by_cases h : l.length % 8 ≠ 0
  · rw [if_pos h, show (l.length + 7) / 8 - l.length = 0 by omega]
    simp
  · rw [if_neg h]

theorem bytes_from_grasses_cons (e : Grass) (es : List Grass) :
    bytes_from_grasses (e :: es) =
      bitsToBytes
        ((accGo es ((get_grass_bits e).drop 22)
            (bitsToNat ((get_grass_bits e).take 22) + 22)).take
          (bitsToNat ((get_grass_bits e).take 22) + 22 - 22)) := by
  show bitsToBytes _ = _
  rw [pad_noop]

theorem header_take22 (e : Grass) (B : List Bool) (h22 : 22 ≤ B.length)
    (hB : 0 < B.length) :
    (get_grass_bits (set_grass_bits e B 0).1).take 22 = B.take 22 := by
  rw [get_set_grass e B 0 hB, List.drop_zero, List.take_take,
    min_eq_left (bitWidth_bounds e).1, take_of_prefix_len _ _ _ h22]

theorem drop22_of_get_set (e : Grass) (B : List Bool) (hB : 0 < B.length) :
    (get_grass_bits (set_grass_bits e B 0).1).drop 22
      = ((B ++ List.replicate 70 false).drop 22).take (bitWidth e - 22) := by
  rw [get_set_grass e B 0 hB, List.drop_zero, List.drop_take]

/-- C1 (amended): the Field-codec round trip recovers the payload whenever
the payload fits the effective capacity of the carriers (70 bits per carrier
with an age field, 50 without, minus the 22-bit header) and the stored bit
count fits the 22-bit header. -/
theorem field_roundtrip (elements : List Grass) (payload : List Nat)
    (hbytes : ∀ b ∈ payload, b < 256)
    (hsize : payload.length * 8 < 2 ^ 22)
    (hcap : payload.length * 8 + 22 ≤ (elements.map bitWidth).sum)
    (hwf : ∀ g ∈ elements, 5 ≤ g.health ∧ g.health ≤ 85 ∧ 0 ≤ g.growth) :
    bytes_from_grasses (bytes_to_grasses elements payload) = payload := by
  clear hwf
  have hsum := widthSum_le elements
  match elements with
  | [] =>
    simp only [List.map_nil, List.sum_nil] at hcap
    omega
  | e :: es =>
    have hmin : min ((e :: es).length * 70 - 22) (payload.length * 8)
        = payload.length * 8 := by
      apply min_eq_right
      omega
    set L := payload.length * 8 with hL
    set B : List Bool := toBin L 22 ++ bytesToBits payload with hBdef
    have hhdr : (toBin L 22).length = 22 := toBin_length L 22 (by omega) (by omega)
    have hpb : (bytesToBits payload).length = L := by
      rw [bytesToBits_length payload hbytes]
      omega
    have hBlen : B.length = L + 22 := by
      rw [hBdef, List.length_append, hhdr, hpb]
      omega
    have henc : bytes_to_grasses (e :: es) payload = encGo (e :: es) B 0 (L + 22) := by
      unfold bytes_to_grasses
      rw [hmin]
    rw [henc, encGo, if_neg (by omega), set_grass_snd, Nat.zero_add]
    rw [bytes_from_grasses_cons]
    have h22B : 22 ≤ B.length := by omega
    have hhead := header_take22 e B h22B (by omega)
    have hval : bitsToNat (B.take 22) = L := by
      rw [hBdef, take_of_prefix_len _ _ _ (by omega),
        List.take_of_length_le (le_of_eq hhdr), toBin_val]
    rw [hhead, hval]
    have hdrop := drop22_of_get_set e B (by omega)
    have hdt : ((B ++ List.replicate 70 false).drop 22).take (bitWidth e - 22)
        = ((B ++ List.replicate 70 false).drop 22).take (bitWidth e - 22) := rfl
    rw [hdrop]
    have hmain := acc_main B h22B es (bitWidth e) (bitWidth_bounds e).1
      (by have := (bitWidth_bounds e).2; omega)
      (by simp only [List.map_cons, List.sum_cons] at hcap; omega)
    rw [hBlen] at hmain
    have hfinal : B.drop 22 = bytesToBits payload := by
      rw [hBdef, List.drop_append_eq_append_drop,
        show (toBin L 22).drop 22 = [] from List.drop_eq_nil_of_le (le_of_eq hhdr),
        show 22 - (toBin L 22).length = 0 by omega, List.drop_zero, List.nil_append]
    rw [show L + 22 - 22 = L by omega] at hmain ⊢
    rw [hmain, hfinal, bitsToBytes_bytesToBits payload hbytes]

/-- C1 counterexample: a single carrier without an age field satisfies the
claim hypothesis L = 32 bits and 32 is at most 70 * 1 - 22 = 48, all values
lie in their valid ranges, yet the round trip loses the payload tail because
an ageless carrier only stores 50 of the 70 bits the capacity formula counts
on. -/
theorem field_roundtrip_counterexample :
    4 * 8 ≤ 1 * 70 - 22 ∧
    (∀ g ∈ [(⟨0, 5, 0, none⟩ : Grass)], 5 ≤ g.health ∧ g.health ≤ 85 ∧ 0 ≤ g.growth) ∧
    bytes_from_grasses (bytes_to_grasses [(⟨0, 5, 0, none⟩ : Grass)] [0, 0, 0, 1])
      ≠ [0, 0, 0, 1] := by
  refine ⟨by decide, by decide, by decide⟩

/-- C1 witness: two carriers with age fields carry a one-byte payload through
the round trip. -/
theorem field_roundtrip_witness :
    bytes_from_grasses
        (bytes_to_grasses [(⟨0, 5, 0, some 0⟩ : Grass), (⟨0, 5, 0, some 0⟩ : Grass)] [171])
      = [171] :=
  field_roundtrip _ _ (by decide) (by decide) (by decide) (by decide)

/-- C3: carriers positioned after the point where the bit cursor has reached
storedBits + 22 are returned by the encode exactly as they were. -/
theorem field_tail_unmodified (elements : List Grass) (payload : List Nat) (j : Nat)
    (h : min (elements.length * 70 - 22) (payload.length * 8) + 22
        ≤ ((elements.take j).map bitWidth).sum) :
    (bytes_to_grasses elements payload).drop j = elements.drop j := by
  unfold bytes_to_grasses
  refine encGo_drop elements _ 0 _ j ?_
  omega

/-- C3 witness: with an empty payload only the first of two carriers is
touched, the second is returned unchanged. -/
theorem field_tail_unmodified_witness :
    (bytes_to_grasses [(⟨1, 40, 0, some 9⟩ : Grass), (⟨2, 41, 0, some 8⟩ : Grass)] []).drop 1
      = [(⟨1, 40, 0, some 9⟩ : Grass), (⟨2, 41, 0, some 8⟩ : Grass)].drop 1 :=
  field_tail_unmodified _ _ _ (by decide)

/-- C4 (amended): the 22-bit header written into the first carrier reads back
as exactly min(C * 70 - 22, B * 8), provided that clamped count fits in 22
bits. -/
theorem field_header (g : Grass) (els : List Grass) (payload : List Nat)
    (hsz : min ((g :: els).length * 70 - 22) (payload.length * 8) < 2 ^ 22) :
    bitsToNat ((get_grass_bits ((bytes_to_grasses (g :: els) payload).headI)).take 22)
      = min ((g :: els).length * 70 - 22) (payload.length * 8) := by
  set m := min ((g :: els).length * 70 - 22) (payload.length * 8) with hm
  set B : List Bool := toBin m 22 ++ bytesToBits payload with hBdef
  have hhdr : (toBin m 22).length = 22 := toBin_length m 22 (by omega) (by omega)
  have h22B : 22 ≤ B.length := by
    rw [hBdef, List.length_append, hhdr]
    omega
  have henc : bytes_to_grasses (g :: els) payload = encGo (g :: els) B 0 (m + 22) := rfl
  rw [henc, encGo, if_neg (by omega)]
  rw [List.headI_cons, header_take22 g B h22B (by omega)]
  rw [hBdef, take_of_prefix_len _ _ _ (by omega),
    List.take_of_length_le (le_of_eq hhdr), toBin_val]

/-- C4 witness: one carrier and an empty payload store the clamped size 0. -/
theorem field_header_witness :
    bitsToNat ((get_grass_bits ((bytes_to_grasses [(⟨0, 5, 0, some 0⟩ : Grass)] []).headI)).take 22)
      = min (1 * 70 - 22) (0 * 8) :=
  field_header _ _ _ (by decide)

theorem drop_exact (X Y : List Bool) (a : Nat) (ha : X.length = a) :
    (X ++ Y).drop a = Y := by
  subst ha
  exact List.drop_left X Y

theorem take_exact (X Y : List Bool) (a : Nat) (ha : X.length = a) :
    (X ++ Y).take a = X := by
  subst ha
  exact List.take_left X Y

theorem set_fields_some (g : Grass) (a : Nat) (hg : g.age = some a) (bits : List Bool)
    (h70 : 70 ≤ bits.length) :
    (set_grass_bits g bits 0).1 =
      ⟨bitsToNat (bits.take 18), bitsToNat ((bits.drop 18).take 6) + 5,
        mkRat (bitsToNat ((bits.drop 24).take 26)) 100000000,
        some (bitsToNat ((bits.drop 50).take 20))⟩ := by
  simp only [set_grass_bits, hg, Nat.sub_zero,
    if_neg (show ¬(bits.length < 70) by omega), List.drop_zero, Nat.zero_add]

theorem set_fields_none (g : Grass) (hg : g.age = none) (bits : List Bool)
    (h50 : bits.length = 50) :
    (set_grass_bits g bits 0).1 =
      ⟨bitsToNat ((bits ++ List.replicate 20 false).take 18),
        bitsToNat (((bits ++ List.replicate 20 false).drop 18).take 6) + 5,
        mkRat (bitsToNat (((bits ++ List.replicate 20 false).drop 24).take 26)) 100000000,
        none⟩ := by
  simp only [set_grass_bits, hg, Nat.sub_zero, h50, List.drop_zero, Nat.zero_add,
    if_pos (show (50 : Nat) < 70 by omega),
    show (50 + 69) / 70 * 70 - 50 = 20 by norm_num]

/-- C8 (amended): re-encoding the decoded bits of a well-formed carrier whose
health lies in [5, 68] reproduces the carrier exactly (the decode stores
health - 5 in six bits, which only round-trips while health - 5 < 64). -/
theorem grass_reencode (x : Grass)
    (hid : x.idVal < 2 ^ 18)
    (hh5 : 5 ≤ x.health) (hh68 : x.health ≤ 68)
    (hgrow : ∃ n : Nat, n < 2 ^ 26 ∧ x.growth = mkRat n 100000000)
    (hage : x.age.getD 0 < 2 ^ 20) :
    (set_grass_bits x (get_grass_bits x) 0).1 = x := by
  obtain ⟨idv, hlth, grow, ag⟩ := x
  obtain ⟨n, hn, hgr⟩ := hgrow
  simp only at hid hh5 hh68 hage
  subst hgr
  have hA : (toBin idv 18).length = 18 := toBin_length _ _ hid (by omega)
  have hB : (toBin (hlth - 5) 6).length = 6 := toBin_length _ _ (by omega) (by omega)
  have hscale : decScaled (mkRat n 100000000) 100000000 = n := growth_scaled n
  have hC : (toBin (decScaled (mkRat n 100000000) 100000000).toNat 26).length = 26 := by
    rw [hscale, Int.toNat_natCast]
    exact toBin_length _ _ hn (by omega)
  set A := toBin idv 18 with hAdef
  set Bb := toBin (hlth - 5) 6 with hBdef
  set C := toBin (decScaled (mkRat n 100000000) 100000000).toNat 26 with hCdef
  cases ag with
  | some a =>
    simp only [Option.getD_some] at hage
    have hD : (toBin a 20).length = 20 := toBin_length _ _ hage (by omega)
    set D := toBin a 20 with hDdef
    have hget : get_grass_bits ⟨idv, hlth, mkRat n 100000000, some a⟩
        = A ++ (Bb ++ (C ++ D)) := by
      simp only [get_grass_bits, List.append_assoc]
    have hlen : (A ++ (Bb ++ (C ++ D))).length = 70 := by
      simp only [List.length_append, hA, hB, hC, hD]
    rw [hget, set_fields_some _ a rfl _ (le_of_eq hlen.symm)]
    have f1 : (A ++ (Bb ++ (C ++ D))).take 18 = A := take_exact _ _ _ hA
    have f2 : ((A ++ (Bb ++ (C ++ D))).drop 18).take 6 = Bb := by
      rw [drop_exact _ _ _ hA, take_exact _ _ _ hB]
    have f3 : ((A ++ (Bb ++ (C ++ D))).drop 24).take 26 = C := by
      rw [show A ++ (Bb ++ (C ++ D)) = (A ++ Bb) ++ (C ++ D) by simp [List.append_assoc],
        drop_exact _ _ _ (by simp [hA, hB]), take_exact _ _ _ hC]
    have f4 : ((A ++ (Bb ++ (C ++ D))).drop 50).take 20 = D := by
      rw [show A ++ (Bb ++ (C ++ D)) = ((A ++ Bb) ++ C) ++ D by simp [List.append_assoc],
        drop_exact _ _ _ (by simp [hA, hB, hC]), List.take_of_length_le (le_of_eq hD)]
    rw [f1, f2, f3, f4, hAdef, hBdef, hCdef, hDdef, toBin_val, toBin_val, toBin_val,
      toBin_val, hscale, Int.toNat_natCast]
    simp only [Grass.mk.injEq, true_and, and_true]
    omega
  | none =>
    have hget : get_grass_bits ⟨idv, hlth, mkRat n 100000000, none⟩
        = A ++ (Bb ++ C) := by
      simp only [get_grass_bits, List.append_assoc, List.append_nil]
    have hlen : (A ++ (Bb ++ C)).length = 50 := by
      simp only [List.length_append, hA, hB, hC]
    rw [hget, set_fields_none _ rfl _ hlen]
    have hassoc : A ++ (Bb ++ C) ++ List.replicate 20 false
        = A ++ (Bb ++ (C ++ List.replicate 20 false)) := by
      simp [List.append_assoc]
    have f1 : ((A ++ (Bb ++ C)) ++ List.replicate 20 false).take 18 = A := by
      rw [hassoc]
      exact take_exact _ _ _ hA
    have f2 : (((A ++ (Bb ++ C)) ++ List.replicate 20 false).drop 18).take 6 = Bb := by
      rw [hassoc, drop_exact _ _ _ hA, take_exact _ _ _ hB]
    have f3 : (((A ++ (Bb ++ C)) ++ List.replicate 20 false).drop 24).take 26 = C := by
      rw [show (A ++ (Bb ++ C)) ++ List.replicate 20 false
            = (A ++ Bb) ++ (C ++ List.replicate 20 false) by simp [List.append_assoc],
        drop_exact _ _ _ (by simp [hA, hB]), take_exact _ _ _ hC]
    rw [f1, f2, f3, hAdef, hBdef, hCdef, toBin_val, toBin_val, toBin_val,
      hscale, Int.toNat_natCast]
    simp only [Grass.mk.injEq, true_and, and_true]
    omega


theorem bytes_to_grasses_eq (elements : List Grass) (payload : List Nat) :
    bytes_to_grasses elements payload
      = encGo elements
          (toBin (min (elements.length * 70 - 22) (payload.length * 8)) 22
            ++ bytesToBits payload) 0
          (min (elements.length * 70 - 22) (payload.length * 8) + 22) := rfl

theorem toBin_zero8 : toBin 0 8 = List.replicate 8 false := by decide

theorem bytesToBits_replicate_zero (m : Nat) :
    bytesToBits (List.replicate m 0) = List.replicate (8 * m) false := by
  induction m with
  | zero => simp [bytesToBits]
  | succ k ih =>
    rw [List.replicate_succ, bytesToBits_cons, ih, toBin_zero8,
      show 8 * (k + 1) = 8 + 8 * k by ring, List.replicate_add]

/-- C4 counterexample: with 59919 carriers and a payload of 524288 bytes the
clamped bit count min(59919 * 70 - 22, 524288 * 8) = 2 ^ 22 does not fit in
22 bits, and the length header actually written into the first carrier reads
back as 2 ^ 21, not the clamped count. -/
theorem field_header_counterexample :
    bitsToNat ((get_grass_bits
        ((bytes_to_grasses (List.replicate 59919 (⟨0, 5, 0, some 0⟩ : Grass))
          (List.replicate 524288 0)).headI)).take 22)
      ≠ min (59919 * 70 - 22) (524288 * 8) := by
  have hmin : min ((List.replicate 59919 (⟨0, 5, 0, some 0⟩ : Grass)).length * 70 - 22)
      ((List.replicate (524288 : Nat) (0 : Nat)).length * 8) = 4194304 := by
    simp only [List.length_replicate]
    norm_num
  have hB : toBin 4194304 22 ++ bytesToBits (List.replicate (524288 : Nat) (0 : Nat))
      = true :: List.replicate 4194326 false := by
    rw [bytesToBits_replicate_zero, show toBin 4194304 22 = true :: List.replicate 22 false
        by decide, List.cons_append, ← List.replicate_add,
      show (22 : Nat) + 8 * 524288 = 4194326 from rfl]
  have henc : bytes_to_grasses (List.replicate 59919 (⟨0, 5, 0, some 0⟩ : Grass))
        (List.replicate 524288 0)
      = encGo (List.replicate 59919 (⟨0, 5, 0, some 0⟩ : Grass))
          (true :: List.replicate 4194326 false) 0 4194326 := by
    rw [bytes_to_grasses_eq, hmin, hB]
  rw [henc, show (59919 : Nat) = 59918 + 1 from rfl, List.replicate_succ, encGo,
    if_neg (by norm_num), List.headI_cons]
  have he0 : (set_grass_bits (⟨0, 5, 0, some 0⟩ : Grass)
        (true :: List.replicate 4194326 false) 0).1
      = ⟨131072, 5, mkRat 0 100000000, some 0⟩ := by
    rw [set_fields_some _ 0 rfl _
      (by rw [List.length_cons, List.length_replicate]; omega)]
    have t18 : (true :: List.replicate 4194326 false).take 18
        = true :: List.replicate 17 false := by
      rw [show (18 : Nat) = 17 + 1 from rfl, List.take_succ_cons, List.take_replicate]
      norm_num
    have d18 : (true :: List.replicate 4194326 false).drop 18
        = List.replicate 4194309 false := by
      rw [show (18 : Nat) = 17 + 1 from rfl, List.drop_succ_cons, List.drop_replicate]
    have d24 : (true :: List.replicate 4194326 false).drop 24
        = List.replicate 4194303 false := by
      rw [show (24 : Nat) = 23 + 1 from rfl, List.drop_succ_cons, List.drop_replicate]
    have d50 : (true :: List.replicate 4194326 false).drop 50
        = List.replicate 4194277 false := by
      rw [show (50 : Nat) = 49 + 1 from rfl, List.drop_succ_cons, List.drop_replicate]
    rw [t18, d18, d24, d50, List.take_replicate, List.take_replicate, List.take_replicate]
    rw [show min 6 4194309 = 6 by decide, show min 26 4194303 = 26 by decide,
      show min 20 4194277 = 20 by decide]
    simp only [bitsToNat_replicate_false]
    rw [show bitsToNat (true :: List.replicate 17 false) = 131072 by decide]
    norm_num
  rw [he0]
  decide

/-- C8 counterexample: health 85 is inside the range the claim allows, all
other fields are in range, yet the re-encode maps health 85 to 45 because
85 - 5 = 80 needs seven bits while the health slot reads only six. -/
theorem grass_reencode_counterexample :
    (set_grass_bits ⟨0, 85, 0, some 0⟩ (get_grass_bits ⟨0, 85, 0, some 0⟩) 0).1
      ≠ (⟨0, 85, 0, some 0⟩ : Grass) := by
  decide

/-- C8 witness: a carrier with health 68 and in-range fields round trips. -/
theorem grass_reencode_witness :
    (set_grass_bits ⟨7, 68, mkRat 99 100000000, some 3⟩
        (get_grass_bits ⟨7, 68, mkRat 99 100000000, some 3⟩) 0).1
      = (⟨7, 68, mkRat 99 100000000, some 3⟩ : Grass) :=
  grass_reencode _ (by decide) (by decide) (by decide) ⟨99, by decide, rfl⟩ (by decide)

/-- C7: the decode of a carrier whose header declares four stored bits (the
payload bits being 1, 0, 1, 0) returns the byte 10, i.e. the final partial
group is parsed without the right zero-padding the source's own comment and
docstring promise; with the documented padding the result would be the byte
0b10100000 = 160. -/
theorem field_padding_behavior :
    bytes_from_grasses [(⟨0, 23, mkRat 33554432 100000000, none⟩ : Grass)] = [10] := by
  decide

/-- Fractional part of a carrier value as the fractional decode computes it:
Decimal(text) - Decimal(math.floor(Decimal(text))).  Written on the
numerator/denominator representation so it evaluates in the kernel; the
value equals q - floor q (fracPart_eq). -/
def fracPart (q : ℚ) : ℚ := mkRat (q.num.fmod q.den) q.den

theorem fracPart_eq (q : ℚ) : fracPart q = q - (qfloor q : ℚ) := by
  have hden : (q.den : ℚ) ≠ 0 := by positivity
  have hnum : (q.num : ℚ) = q * (q.den : ℚ) := (div_eq_iff hden).mp (Rat.num_div_den q)
  have hmod : q.num.fmod q.den = q.num - (q.den : Int) * Int.fdiv q.num q.den := by
    have h := Int.fdiv_add_fmod q.num (q.den : Int)
    omega
  rw [fracPart, Rat.mkRat_eq_div, hmod, qfloor]
  push_cast
  field_simp
  rw [hnum]
  ring

/-- One decoded byte of the fractional codec:
int((Decimal(text) - Decimal(math.floor(Decimal(text)))) * 1000). -/
def fracByte (q : ℚ) : Int := decScaled (fracPart q) 1000

/-- The 32-bit big-endian byte count reassembled from the four header bytes,
num_bytes += bytes[i] * 2 ^ (8 * (3 - i)) for i in range(4). -/
def headerVal (bs : List Int) : Int :=
  bs.getD 0 0 * 2 ^ 24 + bs.getD 1 0 * 2 ^ 16 + bs.getD 2 0 * 2 ^ 8 + bs.getD 3 0

/-- The stored byte count a carrier list declares: the reassembled header of
its first four decoded bytes. -/
def storedBytes (floats : List ℚ) : Nat :=
  (headerVal ((floats.take 4).map fracByte)).toNat

/-- Model of floats_to_bytes with the default num_bytes=None: read four
header bytes, reassemble the stored byte count, then read that many further
carriers; the returned list contains the four header bytes followed by the
payload bytes, exactly as the source appends them.  none models the
IndexError the source raises when floats[index] runs past the end of the
list (either during the header reads or during the payload loop). -/
def floats_to_bytes (floats : List ℚ) : Option (List Int) :=
  if floats.length < 4 then none
  else if storedBytes floats ≠ 0 ∧ floats.length < storedBytes floats + 4 then none
  else some (((floats.take 4).map fracByte)
    ++ ((floats.drop 4).take (storedBytes floats)).map fracByte)

/-- Modelled write of one fractional carrier with stored byte b:
str(float(b) * 0.001 + math.floor(float(text))).  The IEEE double products
are idealized as exact rationals, giving the value floor(v) + b/1000, here
written over the common denominator 1000 so the definition evaluates in the
kernel; floatEncodeStep_eq gives the textbook form. -/
def floatEncodeStep (v : ℚ) (b : Nat) : ℚ := mkRat (b + 1000 * qfloor v) 1000

theorem floatEncodeStep_eq (v : ℚ) (b : Nat) :
    floatEncodeStep v b = (b : ℚ) / 1000 + (qfloor v : ℚ) := by
  rw [floatEncodeStep, Rat.mkRat_eq_div]
  push_cast
  ring

/-- C6 (amended): whenever the carrier list holds fewer than storedBytes + 4
elements, the fractional decode raises an index error (modelled as none);
no partial payload is returned. -/
theorem fractional_insufficient (floats : List ℚ)
    (h : floats.length < storedBytes floats + 4) :
    floats_to_bytes floats = none := by
  unfold floats_to_bytes
  by_cases h4 : floats.length < 4
  · rw [if_pos h4]
  · rw [if_neg h4, if_pos]
    refine ⟨?_, h⟩
    intro h0
    rw [h0] at h
    omega

/-- C6 counterexample: four carriers whose fractional parts are 0, 0, 0 and
one thousandth declare storedBytes = 1, so a fifth carrier would be needed;
the decode crashes (none) instead of returning the partial payload the
claim promises. -/
theorem fractional_insufficient_counterexample :
    floats_to_bytes [0, 0, 0, mkRat 1 1000] = none := by
  decide

/-- C6 witness: a list declaring one stored byte but holding no payload
carrier fails. -/
theorem fractional_insufficient_witness :
    floats_to_bytes [0, 0, 0, mkRat 2 1000] = none :=
  fractional_insufficient _ (by decide)

/-- C5 (amended): the fractional encode step writes floor(v) + b/1000: it
preserves the floor of the carrier value exactly and makes value - floor
exactly b thousandths, for every carrier value and byte b in [0, 255]; the
digits-before-the-decimal-point reading of integer part fails for negative
non-integer carriers (see the counterexample). -/
theorem fractional_step_floor (v : ℚ) (b : Nat) (hb : b ≤ 255) :
    qfloor (floatEncodeStep v b) = qfloor v ∧
      floatEncodeStep v b - (qfloor (floatEncodeStep v b) : ℚ) = (b : ℚ) / 1000 := by
  have hlt : (b : ℚ) / 1000 < 1 := by
    rw [div_lt_one (by norm_num)]
    exact_mod_cast lt_of_le_of_lt hb (by norm_num)
  have hzero : ⌊(b : ℚ) / 1000⌋ = 0 := by
    rw [Int.floor_eq_zero_iff]
    constructor
    · positivity
    · exact hlt
  have hfloor : qfloor (floatEncodeStep v b) = qfloor v := by
    rw [qfloor_eq_floor, floatEncodeStep_eq, Int.floor_add_int, hzero, Int.zero_add]
  refine ⟨hfloor, ?_⟩
  rw [hfloor, floatEncodeStep_eq]
  ring

/-- C5 counterexample: carrier value -5/2 with stored byte 0.  The written
value is -3, whose digits before the decimal point (truncation toward zero)
give -3, while the original carrier's give -2: the encode step changed the
integer part of the text. -/
theorem fractional_step_counterexample :
    qtrunc (floatEncodeStep (mkRat (-5) 2) 0) ≠ qtrunc (mkRat (-5) 2) := by
  decide

/-- C5 witness: carrier 7/2 with byte 255 keeps floor 3 and gets fractional
part 255/1000. -/
theorem fractional_step_witness :
    qfloor (floatEncodeStep (mkRat 7 2) 255) = qfloor (mkRat 7 2) ∧
      floatEncodeStep (mkRat 7 2) 255
          - (qfloor (floatEncodeStep (mkRat 7 2) 255) : ℚ) = (255 : ℚ) / 1000 :=
  fractional_step_floor _ _ (by decide)

/-- Model of bytes_to_whitespace: the payload bit string with 0 rendered as
a space and 1 as a tab. -/
def bytes_to_whitespace (bytes : List Nat) : List Char :=
  (bytesToBits bytes).map (fun b => if b then '\t' else ' ')

/-- One character of the whitespace decode: spaces and tabs are replaced by
the digits 0 and 1, characters that already are binary digits parse as
themselves, and any other character makes int(message, 2) raise.  (Sign
characters, which Python's int also accepts, are not modelled; no claim
reaches them.) -/
def charToBit (c : Char) : Option Bool :=
  if c = ' ' ∨ c = '0' then some false
  else if c = '\t' ∨ c = '1' then some true
  else none

/-- Model of whitespace_to_bytes: map the glyphs to bits, right-pad with
zero bits to a byte boundary, and chunk into bytes; none models the
ValueError raised on a character that is neither glyph nor digit. -/
def whitespace_to_bytes (ws : List Char) : Option (List Nat) :=
  match ws.mapM charToBit with
  | none => none
  | some message =>
      some (bitsToBytes (if message.length % 8 ≠ 0
        then message ++ List.replicate (8 - message.length % 8) false else message))

/-- C10: converting bytes to glyphs and back recovers exactly the original
byte list, with no padding byte appended. -/
theorem whitespace_roundtrip (bytes : List Nat) (hb : ∀ b ∈ bytes, b < 256) :
    whitespace_to_bytes (bytes_to_whitespace bytes) = some bytes := by
  have hmap : ∀ l : List Bool,
      (l.map (fun b => if b then '\t' else ' ')).mapM charToBit = some l := by
    intro l
    induction l with
    | nil => rfl
    | cons b t ih =>
      cases b
      · have hc : (false :: t).map (fun b => if b then '\t' else ' ')
            = ' ' :: t.map (fun b => if b then '\t' else ' ') := rfl
        rw [hc, List.mapM_cons, show charToBit ' ' = some false from by decide, ih]
        rfl
      · have hc : (true :: t).map (fun b => if b then '\t' else ' ')
            = '\t' :: t.map (fun b => if b then '\t' else ' ') := rfl
        rw [hc, List.mapM_cons, show charToBit '\t' = some true from by decide, ih]
        rfl
  unfold whitespace_to_bytes bytes_to_whitespace
  rw [hmap]
  have hlen := bytesToBits_length bytes hb
  show some (bitsToBytes (if (bytesToBits bytes).length % 8 ≠ 0
      then bytesToBits bytes ++ List.replicate (8 - (bytesToBits bytes).length % 8) false
      else bytesToBits bytes)) = some bytes
  rw [if_neg (by simp [hlen, Nat.mul_mod_right])]
  exact congrArg some (bitsToBytes_bytesToBits bytes hb)

/-- C10 witness: the bytes 5 and 255 round trip through the glyph string. -/
theorem whitespace_roundtrip_witness :
    whitespace_to_bytes (bytes_to_whitespace [5, 255]) = some [5, 255] :=
  whitespace_roundtrip _ (by decide)

/-- Splitter on the two-character separator of a line feed followed by a
carriage return, as Python's str.split of that separator: non-overlapping,
left to right. -/
def splitNRGo : List Char → List Char → List (List Char)
  | [], acc => [acc.reverse]
  | [c], acc => [(c :: acc).reverse]
  | c1 :: c2 :: rest, acc =>
    if c1 = '\n' ∧ c2 = '\r' then acc.reverse :: splitNRGo rest []
    else splitNRGo (c2 :: rest) (c1 :: acc)

def splitNR (s : List Char) : List (List Char) := splitNRGo s []

/-- The scan over every line but the last: record the final character of
each line while it is a space or tab, stop at the first line whose final
character is neither (the Bool records whether the scan stopped early);
none models the IndexError raised by line[-1] on an empty line. -/
def wsScan : List (List Char) → List Char → Option (List Char × Bool)
  | [], acc => some (acc, false)
  | l :: ls, acc =>
    match l.getLast? with
    | none => none
    | some c => if c = ' ' ∨ c = '\t' then wsScan ls (acc ++ [c]) else some (acc, true)

/-- Model of extract_whitespace.  When the scan of the earlier lines ran to
completion, the source inspects the final fragment, but its two guards only
construct Exception objects without raising them (and the first one reads
the last character of the whole text rather than of the final line), so the
entire final fragment is appended unconditionally; the only exception that
is actually raised inside the try block is the index error on an empty
text, which the except clause turns into keeping the collected glyphs. -/
def extract_whitespace (s : List Char) : Option (List Char) :=
  match wsScan (splitNR s).dropLast [] with
  | none => none
  | some (acc, true) => some acc
  | some (acc, false) =>
      if s = [] then some acc else some (acc ++ (splitNR s).getLastD [])

/-- C9: on the text consisting of the line a-space followed by the final
fragment XY, every line before the last ends in a glyph, the final fragment
contains characters outside the space/tab set, and the decode nevertheless
appends the whole fragment: it returns the glyph string space-X-Y where the
claim requires the fragment to contribute nothing. -/
theorem whitespace_tail_behavior :
    extract_whitespace ['a', ' ', '\n', '\r', 'X', 'Y']
      = some [' ', 'X', 'Y'] := by
  decide

end RimStego
